import Mathlib

/-!
Verification of the hazformat template-fill engine.

Strings are modelled as `List Char`.  Python semantics embedded here:
`str.replace` (left-to-right, non-overlapping) as `pyReplace`, the `in`
substring test as `containsSubstr`, ordered `dict`s as association lists
with `dictInsert` (update keeps the first position, fresh keys append at
the end).
-/

/-- The literal character U+007B (opening curly brace). -/
def lbrace : Char := '\x7b'

/-- The literal character U+007D (closing curly brace). -/
def rbrace : Char := '\x7d'

/-- Python `pat in s` substring test (`containsSubstr s pat`). -/
def containsSubstr (hay pat : List Char) : Bool :=
  pat.isPrefixOf hay ||
    match hay with
    | [] => false
    | _ :: t => containsSubstr t pat

/-- Worker for `pyReplace`: scans the string left to right; `skip` counts
characters still to copy silently after a match (the matched span beyond its
first character).  Mirrors CPython `str.replace` for a non-empty pattern; the
repository only ever replaces non-empty patterns. -/
def raGo (pat rep : List Char) (skip : Nat) : List Char → List Char
  | [] => []
  | c :: cs =>
    match skip with
    | n + 1 => raGo pat rep n cs
    | 0 =>
      if pat ≠ [] ∧ pat.isPrefixOf (c :: cs) then
        rep ++ raGo pat rep (pat.length - 1) cs
      else
        c :: raGo pat rep 0 cs

/-- Embedding of Python `s.replace(pat, rep)` for non-empty `pat`:
replaces every occurrence, left to right, non-overlapping. -/
def pyReplace (pat rep s : List Char) : List Char :=
  raGo pat rep 0 s

/-- The Excel placeholder token `"{{" + key + "}}"` built in
`fill_excel_template` (src/main.py line 145, src/app.py line 125). -/
def excelTok (key : List Char) : List Char :=
  lbrace :: lbrace :: (key ++ [rbrace, rbrace])

/-- openpyxl `Alignment`: the attributes relevant to the spec.  Constructing
`Alignment(wrap_text=True)` leaves every other attribute at its default
`None`. -/
structure CellAlignment where
  horizontal : Option (List Char)
  vertical : Option (List Char)
  wrapText : Option Bool
deriving DecidableEq

/-- A template cell's alignment before the fill touches it can be anything;
`Alignment()` default. -/
def defaultAlignment : CellAlignment := ⟨none, none, none⟩

/-- The object `Alignment(wrap_text=True)` assigned in the address branch of
`fill_excel_template`. -/
def wrapTextAlignment : CellAlignment := ⟨none, none, some true⟩

/-- A cell value as openpyxl hands it over: a string, a number, a date, a
boolean, or empty (`None`). -/
inductive PyValue where
  | str : List Char → PyValue
  | intVal : Int → PyValue
  | dateVal : Nat → PyValue
  | boolVal : Bool → PyValue
  | noneVal : PyValue
deriving DecidableEq

/-- Whether a cell value is a Python `str` (`isinstance(cell.value, str)`). -/
def isStringValue : PyValue → Bool
  | .str _ => true
  | _ => false

/-- A worksheet cell: value plus alignment (the only formatting the fill can
touch). -/
structure Cell where
  value : PyValue
  alignment : CellAlignment
deriving DecidableEq

/-- A field map: Python `dict` in iteration order, keys and values strings
(every value substituted into a cell goes through `str(...)`, identity on
strings). -/
abbrev FieldMap := List (List Char × List Char)

def SHIPPER_ADDRESS : List Char := "SHIPPER_ADDRESS".toList

def CONSIGNEE_ADDRESS : List Char := "CONSIGNEE_ADDRESS".toList

/-- One iteration of `for key, val in data.items()` inside
`fill_excel_template` (src/main.py lines 144-152): build the placeholder,
test `placeholder in cell.value`, and on a hit replace it; for the two
address keys additionally assign `Alignment(wrap_text=True)`.  The
`val.replace("\n", "\n")` of line 148 is kept verbatim. -/
def cellStep (st : List Char × CellAlignment) (kv : List Char × List Char) :
    List Char × CellAlignment :=
  let ph := excelTok kv.1
  if containsSubstr st.1 ph then
    if kv.1 = SHIPPER_ADDRESS ∨ kv.1 = CONSIGNEE_ADDRESS then
      (pyReplace ph (pyReplace ['\n'] ['\n'] kv.2) st.1, wrapTextAlignment)
    else
      (pyReplace ph kv.2 st.1, st.2)
  else st

/-- The whole key loop of `fill_excel_template` run on one string cell. -/
def cellFold (data : FieldMap) (st : List Char × CellAlignment) :
    List Char × CellAlignment :=
  data.foldl cellStep st

/-- `fill_excel_template` on one cell: the guard
`if cell.value and isinstance(cell.value, str)` (src/main.py line 143) skips
non-string cells and falsy (empty-string) cells entirely. -/
def fillCellData (data : FieldMap) (cell : Cell) : Cell :=
  match cell.value with
  | .str s =>
    if s = [] then cell
    else
      let r := cellFold data (s, cell.alignment)
      ⟨.str r.1, r.2⟩
  | _ => cell

/-- A worksheet is its rows of cells; a workbook its worksheets. -/
abbrev Workbook := List (List (List Cell))

/-- `fill_excel_template` (src/main.py lines 138-155): visits every cell of
every row of every sheet and runs the key loop on it; the workbook is then
saved to a fresh file. -/
def fill_excel_template (wb : Workbook) (data : FieldMap) : Workbook :=
  wb.map (fun sheet => sheet.map (fun row => row.map (fillCellData data)))

example : pyReplace "ab".toList "X".toList "zababy".toList = "zXXy".toList := by decide

example : containsSubstr "hello".toList "ell".toList = true := by decide

example : containsSubstr "hello".toList "elo".toList = false := by decide

example :
    (cellFold [("QTY_EQUIPMENT".toList, "1x20FT".toList), ("QTY".toList, "1".toList)]
      ("Qty: ".toList ++ excelTok "QTY_EQUIPMENT".toList, defaultAlignment)).1
      = "Qty: 1x20FT".toList := by decide

lemma containsSubstr_iff_isInfix (hay pat : List Char) :
    containsSubstr hay pat = true ↔ pat <:+: hay := by
  induction hay with
  | nil =>
    rw [containsSubstr]
    simp
  | cons c t ih =>
    rw [containsSubstr]
    simp only [Bool.or_eq_true, List.isPrefixOf_iff_prefix, ih,
      List.infix_cons_iff]

lemma excelTok_count_lbrace {k : List Char} (h : lbrace ∉ k) :
    (excelTok k).count lbrace = 2 := by
  have hk : k.count lbrace = 0 := List.count_eq_zero.mpr h
  simp [excelTok, List.count_cons, List.count_append, hk]
  decide

/-- The full-token guard: if `k₁` is a strict prefix of the brace-free key
`k₂`, the token of `k₁` never occurs inside the token of `k₂`. -/
lemma excelTok_prefix_no_match {k₁ k₂ : List Char}
    (hpre : k₁ <+: k₂) (hne : k₁ ≠ k₂)
    (hbr : ∀ c ∈ k₂, c ≠ lbrace ∧ c ≠ rbrace) :
    containsSubstr (excelTok k₂) (excelTok k₁) = false := by
  rw [← Bool.not_eq_true, containsSubstr_iff_isInfix]
  intro hinf
  obtain ⟨s, t, hst⟩ := hinf
  have hsubset : ∀ c ∈ k₁, c ∈ k₂ := fun c hc => hpre.sublist.subset hc
  have hbr1 : lbrace ∉ k₁ := fun hmem => (hbr _ (hsubset _ hmem)).1 rfl
  have hbr2 : lbrace ∉ k₂ := fun hmem => (hbr _ hmem).1 rfl
  have hcount : s.count lbrace + ((excelTok k₁).count lbrace + t.count lbrace)
      = (excelTok k₂).count lbrace := by
    rw [← hst]; simp [List.count_append]
  rw [excelTok_count_lbrace hbr1, excelTok_count_lbrace hbr2] at hcount
  have hs0 : s.count lbrace = 0 := by omega
  -- the prefix `s` must be empty, else its head is the leading brace
  have hsnil : s = [] := by
    cases s with
    | nil => rfl
    | cons x s' =>
      exfalso
      have hx : x = lbrace := by
        have := congrArg List.head? hst
        simpa [excelTok] using this
      rw [List.count_eq_zero] at hs0
      exact hs0 (hx ▸ List.mem_cons_self x s')
  subst hsnil
  simp only [List.nil_append] at hst
  -- peel the two leading braces and cancel the shared prefix k₁
  obtain ⟨u, hu⟩ := hpre
  have hune : u ≠ [] := by
    intro h0
    apply hne
    rw [← hu, h0, List.append_nil]
  simp only [excelTok, List.cons_append, List.cons.injEq, true_and] at hst
  rw [← hu, List.append_assoc, List.append_assoc] at hst
  have htail : [rbrace, rbrace] ++ t = u ++ [rbrace, rbrace] :=
    List.append_cancel_left hst
  cases u with
  | nil => exact hune rfl
  | cons d u' =>
    have hd : rbrace = d := by
      have := congrArg List.head? htail
      simpa using this
    have hdmem : d ∈ k₂ := by
      rw [← hu]
      exact List.mem_append_right _ (List.mem_cons_self d u')
    exact (hbr _ hdmem).2 hd.symm

/-- Claim C1: in the spreadsheet fill, a cell `Qty: {{QTY_EQUIPMENT}}` with
fields `QTY_EQUIPMENT ↦ 1x20FT` and `QTY ↦ 1` (in either iteration order)
yields `Qty: 1x20FT`; in general, when one key is a strict prefix of another
brace-free key, the shorter key's full braced token never matches inside the
longer key's token. -/
theorem c1_excel_full_token_match :
    ((cellFold [("QTY_EQUIPMENT".toList, "1x20FT".toList), ("QTY".toList, "1".toList)]
        ("Qty: ".toList ++ excelTok "QTY_EQUIPMENT".toList, defaultAlignment)).1
        = "Qty: 1x20FT".toList)
    ∧ ((cellFold [("QTY".toList, "1".toList), ("QTY_EQUIPMENT".toList, "1x20FT".toList)]
        ("Qty: ".toList ++ excelTok "QTY_EQUIPMENT".toList, defaultAlignment)).1
        = "Qty: 1x20FT".toList)
    ∧ (∀ k₁ k₂ : List Char, k₁ <+: k₂ → k₁ ≠ k₂ →
        (∀ c ∈ k₂, c ≠ lbrace ∧ c ≠ rbrace) →
        containsSubstr (excelTok k₂) (excelTok k₁) = false) := by
  refine ⟨by decide, by decide, ?_⟩
  intro k₁ k₂ hpre hne hbr
  exact excelTok_prefix_no_match hpre hne hbr

/-- Witness for C1 at the concrete keys `QTY` and `QTY_EQUIPMENT`. -/
theorem c1_excel_full_token_match_witness :
    containsSubstr (excelTok "QTY_EQUIPMENT".toList) (excelTok "QTY".toList) = false :=
  c1_excel_full_token_match.2.2 "QTY".toList "QTY_EQUIPMENT".toList
    (by decide) (by decide) (by decide)

/-- Claim C10: the key loop rewrites the already-mutated cell text, so a
braced token contained in a previously substituted value is itself replaced
by a later key; formally the fold is sequential over iteration order. -/
theorem c10_sequential_substitution :
    ((cellFold [("CARGO".toList, "UN ".toList ++ excelTok "UNNO".toList),
        ("UNNO".toList, "3265".toList)]
        (excelTok "CARGO".toList, defaultAlignment)).1 = "UN 3265".toList)
    ∧ (∀ (data : FieldMap) (kv : List Char × List Char)
        (st : List Char × CellAlignment),
        cellFold (data ++ [kv]) st = cellStep (cellFold data st) kv) := by
  constructor
  · decide
  · intro data kv st
    simp [cellFold, List.foldl_append]

/-- Claim C8: a cell whose value is not a string is returned unchanged by the
fill; the key loop never runs on it. -/
theorem c8_nonstring_untouched :
    ∀ (data : FieldMap) (cell : Cell), isStringValue cell.value = false →
      fillCellData data cell = cell := by
  intro data cell h
  obtain ⟨v, a⟩ := cell
  cases v <;> simp_all [fillCellData, isStringValue]

/-- Witness for C8: a numeric cell passes through the fill untouched. -/
theorem c8_nonstring_untouched_witness :
    fillCellData [("UNNO".toList, "3265".toList)]
      ⟨.intVal 7, defaultAlignment⟩ = ⟨.intVal 7, defaultAlignment⟩ :=
  c8_nonstring_untouched _ _ (by decide)

lemma cellStep_snd_nonaddress {st : List Char × CellAlignment}
    {kv : List Char × List Char}
    (h1 : kv.1 ≠ SHIPPER_ADDRESS) (h2 : kv.1 ≠ CONSIGNEE_ADDRESS) :
    (cellStep st kv).2 = st.2 := by
  by_cases hc : containsSubstr st.1 (excelTok kv.1) <;>
    simp [cellStep, hc, h1, h2]

lemma cellFold_snd_nonaddress {data : FieldMap}
    (h : ∀ kv ∈ data, kv.1 ≠ SHIPPER_ADDRESS ∧ kv.1 ≠ CONSIGNEE_ADDRESS) :
    ∀ st : List Char × CellAlignment, (cellFold data st).2 = st.2 := by
  induction data with
  | nil => intro st; rfl
  | cons kv rest ih =>
    intro st
    have hkv := h kv (List.mem_cons_self kv rest)
    have hrest : ∀ x ∈ rest, x.1 ≠ SHIPPER_ADDRESS ∧ x.1 ≠ CONSIGNEE_ADDRESS :=
      fun x hx => h x (List.mem_cons_of_mem kv hx)
    show (cellFold rest (cellStep st kv)).2 = st.2
    rw [ih hrest (cellStep st kv)]
    exact cellStep_snd_nonaddress hkv.1 hkv.2

lemma cellStep_snd_wrapKeep (t : List Char) (kv : List Char × List Char) :
    (cellStep (t, wrapTextAlignment) kv).2 = wrapTextAlignment := by
  by_cases hc : containsSubstr t (excelTok kv.1)
  · by_cases ha : kv.1 = SHIPPER_ADDRESS ∨ kv.1 = CONSIGNEE_ADDRESS <;>
      simp [cellStep, hc, ha]
  · simp [cellStep, hc]

lemma cellFold_snd_wrapKeep (data : FieldMap) :
    ∀ t : List Char, (cellFold data (t, wrapTextAlignment)).2 = wrapTextAlignment := by
  induction data with
  | nil => intro t; rfl
  | cons kv rest ih =>
    intro t
    show (cellFold rest (cellStep (t, wrapTextAlignment) kv)).2 = wrapTextAlignment
    rcases hq : cellStep (t, wrapTextAlignment) kv with ⟨x, y⟩
    have hy : y = wrapTextAlignment := by
      have h := cellStep_snd_wrapKeep t kv
      rw [hq] at h
      exact h
    rw [hy]
    exact ih x

lemma cellStep_snd_address_hit {st : List Char × CellAlignment}
    {kv : List Char × List Char}
    (ha : kv.1 = SHIPPER_ADDRESS ∨ kv.1 = CONSIGNEE_ADDRESS)
    (hc : containsSubstr st.1 (excelTok kv.1) = true) :
    (cellStep st kv).2 = wrapTextAlignment := by
  simp [cellStep, hc, ha]

/-- Claim C6: substituting a designated address field into a cell sets the
cell's wrap-text alignment; a fill whose field map carries no address key
leaves the cell's alignment exactly as in the template. -/
theorem c6_wrap_alignment :
    (∀ (data : FieldMap) (cell : Cell),
      (∀ kv ∈ data, kv.1 ≠ SHIPPER_ADDRESS ∧ kv.1 ≠ CONSIGNEE_ADDRESS) →
      (fillCellData data cell).alignment = cell.alignment)
    ∧ (∀ (l r : FieldMap) (k v s : List Char) (a : CellAlignment),
      (k = SHIPPER_ADDRESS ∨ k = CONSIGNEE_ADDRESS) →
      containsSubstr (cellFold l (s, a)).1 (excelTok k) = true →
      (cellFold (l ++ (k, v) :: r) (s, a)).2 = wrapTextAlignment) := by
  constructor
  · intro data cell h
    obtain ⟨v, al⟩ := cell
    cases v with
    | str s =>
      by_cases hs : s = []
      · simp [fillCellData, hs]
      · simp only [fillCellData, hs, if_neg hs]
        exact cellFold_snd_nonaddress h (s, al)
    | intVal n => rfl
    | dateVal d => rfl
    | boolVal b => rfl
    | noneVal => rfl
  · intro l r k v s a ha hc
    have hsplit : cellFold (l ++ (k, v) :: r) (s, a)
        = cellFold r (cellStep (cellFold l (s, a)) (k, v)) := by
      simp [cellFold, List.foldl_append]
    rw [hsplit]
    rcases hq : cellStep (cellFold l (s, a)) (k, v) with ⟨x, y⟩
    have hy : y = wrapTextAlignment := by
      have h := @cellStep_snd_address_hit (cellFold l (s, a)) (k, v) ha hc
      rw [hq] at h
      exact h
    rw [hy]
    exact cellFold_snd_wrapKeep r x

/-- Witness for C6: a consignee-address substitution turns on wrap text, and
a fill without address keys leaves a centered cell's alignment alone. -/
theorem c6_wrap_alignment_witness :
    ((fillCellData [("UNNO".toList, "3265".toList)]
        ⟨.str (excelTok "UNNO".toList), ⟨some "center".toList, none, none⟩⟩).alignment
      = ⟨some "center".toList, none, none⟩)
    ∧ ((cellFold [(CONSIGNEE_ADDRESS, "ACME".toList)]
        (excelTok CONSIGNEE_ADDRESS, defaultAlignment)).2 = wrapTextAlignment) :=
  ⟨c6_wrap_alignment.1 _ _ (by decide),
   c6_wrap_alignment.2 [] [] CONSIGNEE_ADDRESS "ACME".toList
     (excelTok CONSIGNEE_ADDRESS) defaultAlignment (Or.inr rfl) (by decide)⟩

/-- The static rename table `key_map` of `convert_keys_to_template_style`
(src/main.py lines 118-130; identical in src/app.py lines 98-110).  Note the
trailing space in `"Limited Quantity "`. -/
def key_map : List (List Char × List Char) :=
  [("technicalName".toList, "TECHNICAL_NAME".toList),
   ("class".toList, "CLASS".toList),
   ("unno".toList, "UNNO".toList),
   ("subrisk".toList, "SUBRISK".toList),
   ("packingGroup".toList, "PACKING_GROUP".toList),
   ("ems".toList, "EMS".toList),
   ("flashPoint".toList, "FLASH_POINT".toList),
   ("marinePollutant".toList, "MARINE_POLLUTANT".toList),
   ("Limited Quantity ".toList, "LIMITED_QUANTITY".toList),
   ("natureOfCargo".toList, "NATURE_OF_CARGO".toList),
   ("MFAG Number".toList, "MFAG_NUMBER".toList)]

/-- Association-list lookup, mirroring Python `dict.get(k)` returning
`None` on a miss. -/
def assocGet : List (List Char × List Char) → List Char → Option (List Char)
  | [], _ => none
  | (k, v) :: rest, key => if key = k then some v else assocGet rest key

/-- `key_map.get(k, k).replace(" ", "_")`: normalisation of one key
(src/main.py line 131). -/
def normalizeKey (k : List Char) : List Char :=
  pyReplace [' '] ['_'] ((assocGet key_map k).getD k)

/-- Python `dict` assignment `d[k] = v` on an insertion-ordered dict: an
existing key keeps its original position and gets the new value, a fresh key
is appended at the end.  Dict comprehensions build their result this way. -/
def dictInsert {α : Type*} (k : List Char) (v : α) :
    List (List Char × α) → List (List Char × α)
  | [] => [(k, v)]
  | (k', v') :: rest =>
    if k' = k then (k', v) :: rest else (k', v') :: dictInsert k v rest

/-- `convert_keys_to_template_style` (src/main.py lines 117-131): the dict
comprehension over `orig_dict.items()` with renamed keys. -/
def convert_keys_to_template_style {α : Type*} (d : List (List Char × α)) :
    List (List Char × α) :=
  d.foldl (fun acc kv => dictInsert (normalizeKey kv.1) kv.2 acc) []

lemma raGo_space (c : Char) (cs : List Char) :
    raGo [' '] ['_'] 0 (c :: cs)
      = (if c = ' ' then '_' else c) :: raGo [' '] ['_'] 0 cs := by
  by_cases h : c = ' '
  · simp [raGo, List.isPrefixOf, h]
  · simp only [raGo, List.isPrefixOf, if_neg h]
    have hb : (' ' == c) = false := by
      simp [beq_iff_eq]
      exact fun hh => h hh.symm
    simp [hb, h]

lemma space_not_mem_pyReplace (s : List Char) :
    ' ' ∉ pyReplace [' '] ['_'] s := by
  induction s with
  | nil => simp [pyReplace, raGo]
  | cons c cs ih =>
    rw [pyReplace] at ih ⊢
    rw [raGo_space]
    intro hmem
    rcases List.mem_cons.mp hmem with h | h
    · by_cases hc : c = ' ' <;> simp [hc] at h
      exact hc h.symm
    · exact ih h

lemma pyReplace_space_eq_self {s : List Char} (h : ' ' ∉ s) :
    pyReplace [' '] ['_'] s = s := by
  induction s with
  | nil => rfl
  | cons c cs ih =>
    have hc : c ≠ ' ' := fun hh => h (hh ▸ List.mem_cons_self c cs)
    have hcs : ' ' ∉ cs := fun hh => h (List.mem_cons_of_mem c hh)
    rw [pyReplace] at ih ⊢
    rw [raGo_space, if_neg hc, ih hcs]

lemma pyReplace_space_underscore_free :
    ∀ {s w : List Char}, '_' ∉ w → pyReplace [' '] ['_'] s = w → s = w := by
  intro s
  induction s with
  | nil => intro w _ he; exact he
  | cons c cs ih =>
    intro w hw he
    rw [pyReplace, raGo_space] at he
    by_cases hc : c = ' '
    · exfalso
      apply hw
      rw [← he, hc]
      simp
    · rw [if_neg hc] at he
      cases w with
      | nil => exact absurd he (by simp)
      | cons d w' =>
        obtain ⟨h1, h2⟩ := List.cons.injEq .. ▸ he
        have hw' : '_' ∉ w' := fun hh => hw (List.mem_cons_of_mem d hh)
        rw [h1, ih hw' h2]

lemma assocGet_some_mem_keys :
    ∀ {m : List (List Char × List Char)} {k v : List Char},
      assocGet m k = some v → k ∈ m.map Prod.fst := by
  intro m
  induction m with
  | nil => intro k v h; exact absurd h (by simp [assocGet])
  | cons p rest ih =>
    intro k v h
    obtain ⟨k', v'⟩ := p
    rw [assocGet] at h
    by_cases hk : k = k'
    · simp [hk]
    · rw [if_neg hk] at h
      exact List.mem_cons_of_mem _ (ih h)

lemma normalizeKey_fix (k : List Char) :
    normalizeKey (normalizeKey k) = normalizeKey k := by
  cases hm : assocGet key_map k with
  | some v =>
    have hmem := assocGet_some_mem_keys hm
    simp only [key_map, List.map_cons, List.map_nil, List.mem_cons,
      List.not_mem_nil, or_false] at hmem
    rcases hmem with h|h|h|h|h|h|h|h|h|h|h <;> (subst h; decide)
  | none =>
    have hy : normalizeKey k = pyReplace [' '] ['_'] k := by
      rw [normalizeKey, hm]; rfl
    rw [hy]
    have hnosp : ' ' ∉ pyReplace [' '] ['_'] k := space_not_mem_pyReplace k
    have hget : assocGet key_map (pyReplace [' '] ['_'] k) = none := by
      by_contra hne
      obtain ⟨v, hv⟩ := Option.ne_none_iff_exists'.mp hne
      have hmem := assocGet_some_mem_keys hv
      simp only [key_map, List.map_cons, List.map_nil, List.mem_cons,
        List.not_mem_nil, or_false] at hmem
      rcases hmem with h|h|h|h|h|h|h|h|h|h|h
      all_goals first
        | (exact hnosp (h ▸ (by decide : ' ' ∈ "Limited Quantity ".toList)))
        | (exact hnosp (h ▸ (by decide : ' ' ∈ "MFAG Number".toList)))
        | (have hk := pyReplace_space_underscore_free (by decide) h
           rw [hk] at hm
           revert hm
           decide)
    rw [normalizeKey, hget]
    exact pyReplace_space_eq_self hnosp

/-- The keys of an association list, in order. -/
def keysOf {α : Type*} (d : List (List Char × α)) : List (List Char) :=
  d.map Prod.fst

lemma dictInsert_fresh {α : Type*} {k : List Char} {v : α} :
    ∀ {d : List (List Char × α)}, (∀ p ∈ d, p.1 ≠ k) →
      dictInsert k v d = d ++ [(k, v)] := by
  intro d
  induction d with
  | nil => intro _; rfl
  | cons p rest ih =>
    intro h
    obtain ⟨k', v'⟩ := p
    have hk : k' ≠ k := h (k', v') (List.mem_cons_self _ _)
    rw [dictInsert, if_neg hk, ih (fun q hq => h q (List.mem_cons_of_mem _ hq))]
    rfl

lemma dictInsert_keys_sub {α : Type*} {k : List Char} {v : α} :
    ∀ {d : List (List Char × α)} {key : List Char},
      key ∈ keysOf (dictInsert k v d) → key ∈ keysOf d ∨ key = k := by
  intro d
  induction d with
  | nil =>
    intro key h
    simp [dictInsert, keysOf] at h
    exact Or.inr h
  | cons p rest ih =>
    intro key h
    obtain ⟨k', v'⟩ := p
    rw [dictInsert] at h
    by_cases hk : k' = k
    · rw [if_pos hk] at h
      simp only [keysOf, List.map_cons, List.mem_cons] at h ⊢
      tauto
    · rw [if_neg hk] at h
      simp only [keysOf, List.map_cons, List.mem_cons] at h ⊢
      rcases h with h | h
      · exact Or.inl (Or.inl h)
      · rcases ih h with h2 | h2
        · exact Or.inl (Or.inr h2)
        · exact Or.inr h2

lemma dictInsert_nodup {α : Type*} {k : List Char} {v : α} :
    ∀ {d : List (List Char × α)}, (keysOf d).Nodup →
      (keysOf (dictInsert k v d)).Nodup := by
  intro d
  induction d with
  | nil => intro _; simp [dictInsert, keysOf]
  | cons p rest ih =>
    intro h
    obtain ⟨k', v'⟩ := p
    simp only [keysOf, List.map_cons, List.nodup_cons] at h
    rw [dictInsert]
    by_cases hk : k' = k
    · rw [if_pos hk]
      simp only [keysOf, List.map_cons, List.nodup_cons]
      exact h
    · rw [if_neg hk]
      simp only [keysOf, List.map_cons, List.nodup_cons]
      refine ⟨?_, ih h.2⟩
      intro hmem
      rcases dictInsert_keys_sub hmem with h2 | h2
      · exact h.1 h2
      · exact hk h2

lemma foldl_dictInsert_nodup {α : Type*} (f : List Char → List Char) :
    ∀ (d : List (List Char × α)) (acc : List (List Char × α)),
      (keysOf acc).Nodup →
      (keysOf (d.foldl (fun a kv => dictInsert (f kv.1) kv.2 a) acc)).Nodup := by
  intro d
  induction d with
  | nil => intro acc h; exact h
  | cons kv rest ih =>
    intro acc h
    exact ih _ (dictInsert_nodup h)

lemma foldl_dictInsert_keys_image {α : Type*} (f : List Char → List Char) :
    ∀ (d : List (List Char × α)) (acc : List (List Char × α)) (key : List Char),
      key ∈ keysOf (d.foldl (fun a kv => dictInsert (f kv.1) kv.2 a) acc) →
      key ∈ keysOf acc ∨ ∃ k0, key = f k0 := by
  intro d
  induction d with
  | nil => intro acc key h; exact Or.inl h
  | cons kv rest ih =>
    intro acc key h
    rcases ih _ key h with h2 | h2
    · rcases dictInsert_keys_sub h2 with h3 | h3
      · exact Or.inl h3
      · exact Or.inr ⟨kv.1, h3⟩
    · exact Or.inr h2

lemma foldl_dictInsert_rebuild {α : Type*} :
    ∀ (l acc : List (List Char × α)),
      (keysOf (acc ++ l)).Nodup →
      (∀ p ∈ l, normalizeKey p.1 = p.1) →
      l.foldl (fun a kv => dictInsert (normalizeKey kv.1) kv.2 a) acc
        = acc ++ l := by
  intro l
  induction l with
  | nil => intro acc _ _; simp
  | cons p rest ih =>
    intro acc hnd hfix
    obtain ⟨k, v⟩ := p
    have hfixk : normalizeKey k = k := hfix (k, v) (List.mem_cons_self _ _)
    have hfresh : ∀ q ∈ acc, q.1 ≠ k := by
      intro q hq hqk
      have h1 : k ∈ keysOf acc := hqk ▸ List.mem_map_of_mem Prod.fst hq
      have h2 : k ∈ keysOf ((k, v) :: rest) :=
        List.mem_map_of_mem Prod.fst (List.mem_cons_self (k, v) rest)
      have hdisj := List.disjoint_of_nodup_append (by
        simpa [keysOf, List.map_append] using hnd)
      exact hdisj h1 h2
    have hstep : dictInsert (normalizeKey k) v acc = acc ++ [(k, v)] := by
      rw [hfixk]
      exact dictInsert_fresh hfresh
    show List.foldl _ (dictInsert (normalizeKey k) v acc) rest = acc ++ (k, v) :: rest
    rw [hstep]
    have hnd2 : (keysOf ((acc ++ [(k, v)]) ++ rest)).Nodup := by
      rw [List.append_assoc]
      simpa using hnd
    rw [ih (acc ++ [(k, v)]) hnd2
      (fun q hq => hfix q (List.mem_cons_of_mem _ hq))]
    simp

/-- Claim C3: the Field Mapper is idempotent on every input mapping:
normalising twice equals normalising once, for arbitrary value type and
arbitrary (even duplicated) input keys. -/
theorem c3_normalize_idempotent {α : Type*} (d : List (List Char × α)) :
    convert_keys_to_template_style (convert_keys_to_template_style d)
      = convert_keys_to_template_style d := by
  have hnd : (keysOf (convert_keys_to_template_style d)).Nodup :=
    foldl_dictInsert_nodup normalizeKey d [] (by simp [keysOf])
  have hfix : ∀ p ∈ convert_keys_to_template_style d, normalizeKey p.1 = p.1 := by
    intro p hp
    have hmem : p.1 ∈ keysOf (convert_keys_to_template_style d) :=
      List.mem_map_of_mem Prod.fst hp
    rcases foldl_dictInsert_keys_image normalizeKey d [] p.1 hmem with h | ⟨k0, hk0⟩
    · exact absurd h (by simp [keysOf])
    · rw [hk0]
      exact normalizeKey_fix k0
  show (convert_keys_to_template_style d).foldl
      (fun a kv => dictInsert (normalizeKey kv.1) kv.2 a) []
    = convert_keys_to_template_style d
  rw [foldl_dictInsert_rebuild (convert_keys_to_template_style d) []
    (by simpa using hnd) hfix]
  simp

/-- Python `str.lower()` (per character; the paths involved are ASCII). -/
def lowerStr (s : List Char) : List Char := s.map Char.toLower

/-- Python `s.endswith(suffix)`; a tuple argument is the disjunction of the
single tests. -/
def endsWith (suffix s : List Char) : Bool := suffix.isSuffixOf s

/-- Outcome of the generate-document dispatch at the end of `main`
(src/main.py lines 505-527, src/app.py lines 332-354).  The unsupported
branch only reports an error message: it carries no output filename and no
output bytes. -/
inductive FillOutcome where
  | wordDoc : List Char → FillOutcome
  | excelDoc : List Char → FillOutcome
  | unsupported : FillOutcome
deriving DecidableEq

/-- The extension dispatch of `main`: `.docx` goes to the docxtpl render and
is offered as `{name}_filled.docx`; `.xlsx`/`.xls`/`.xltx` go to
`fill_excel_template` and are always offered as `{name}_filled.xlsx`
(src/main.py lines 514 and 523); anything else is refused with the
unsupported-format error and produces no file. -/
def generate_document (templatePath templateName : List Char) : FillOutcome :=
  if endsWith ".docx".toList (lowerStr templatePath) then
    .wordDoc (templateName ++ "_filled.docx".toList)
  else if endsWith ".xlsx".toList (lowerStr templatePath)
      || endsWith ".xls".toList (lowerStr templatePath)
      || endsWith ".xltx".toList (lowerStr templatePath) then
    .excelDoc (templateName ++ "_filled.xlsx".toList)
  else
    .unsupported

/-- Claim C7: a template whose (lowercased) path ends in none of the four
recognised extensions is refused as unsupported, and no output is
produced. -/
theorem c7_unsupported_format :
    ∀ (path name : List Char),
      endsWith ".docx".toList (lowerStr path) = false →
      endsWith ".xlsx".toList (lowerStr path) = false →
      endsWith ".xls".toList (lowerStr path) = false →
      endsWith ".xltx".toList (lowerStr path) = false →
      generate_document path name = .unsupported := by
  intro path name h1 h2 h3 h4
  simp only [generate_document]
  rw [h1, h2, h3, h4]
  simp

/-- Witness for C7: a `.pdf` template is refused. -/
theorem c7_unsupported_format_witness :
    generate_document "template.pdf".toList "template".toList = .unsupported :=
  c7_unsupported_format _ _ (by decide) (by decide) (by decide) (by decide)

/-- Counterexample to claim C9 as stated: a `.xltx` template produces the
filename `haz_filled.xlsx`, which does not retain the original `.xltx`
extension. -/
theorem c9_counterexample :
    generate_document "haz.xltx".toList "haz".toList
        = .excelDoc "haz_filled.xlsx".toList
      ∧ endsWith ".xltx".toList "haz_filled.xlsx".toList = false := by
  constructor
  · decide
  · decide

/-- Claim C9 (amended): the output filename is the display name plus
`_filled` plus a fixed per-format extension: `.docx` templates keep `.docx`,
while every spreadsheet template (`.xlsx`, `.xls`, `.xltx`) is offered as
`.xlsx` regardless of its original extension. -/
theorem c9_amended_output_filename :
    ∀ (path name : List Char),
      (endsWith ".docx".toList (lowerStr path) = true →
        generate_document path name = .wordDoc (name ++ "_filled.docx".toList))
      ∧ (endsWith ".docx".toList (lowerStr path) = false →
        (endsWith ".xlsx".toList (lowerStr path) = true
          ∨ endsWith ".xls".toList (lowerStr path) = true
          ∨ endsWith ".xltx".toList (lowerStr path) = true) →
        generate_document path name = .excelDoc (name ++ "_filled.xlsx".toList)) := by
  intro path name
  constructor
  · intro h
    simp only [generate_document]
    rw [h]
    simp
  · intro h1 h2
    simp only [generate_document]
    rw [h1]
    rcases h2 with h | h | h <;> rw [h] <;> simp

/-- Witness for the amended C9 at concrete `.docx` and `.xls` templates. -/
theorem c9_amended_output_filename_witness :
    generate_document "DGD.docx".toList "DGD".toList
        = .wordDoc "DGD_filled.docx".toList
      ∧ generate_document "DGD.xls".toList "DGD".toList
        = .excelDoc "DGD_filled.xlsx".toList :=
  ⟨(c9_amended_output_filename "DGD.docx".toList "DGD".toList).1 (by decide),
   (c9_amended_output_filename "DGD.xls".toList "DGD".toList).2
     (by decide) (Or.inr (Or.inl (by decide)))⟩

/-- The Word placeholder token `"{{ " + key + " }}"` used by the
`.docx` templates (spec section 4.3). -/
def docxTok (key : List Char) : List Char :=
  lbrace :: lbrace :: ' ' :: (key ++ [' ', rbrace, rbrace])

/-- Modelled from the spec: the merge performed by `DocxTemplate.render`
(src/main.py lines 506-507) lives in the external docxtpl/Jinja2 library and
is not part of src/.  Spec section 4.3: a Word template is a structured
document whose text decomposes into literal runs and `{{ KEY }}` placeholder
spans; this type is that decomposition. -/
inductive DocxSegment where
  | lit : List Char → DocxSegment
  | field : List Char → DocxSegment
deriving DecidableEq

/-- Association lookup over the field map (Python `fields[KEY]` with a miss
reported as `None`). -/
def lookupField : FieldMap → List Char → Option (List Char)
  | [], _ => none
  | (k, v) :: rest, key => if k = key then some v else lookupField rest key

/-- Modelled from the spec: rendering one segment of a Word template — a
literal run is copied, a `{{ KEY }}` placeholder becomes the string value of
`fields[KEY]`, and a key absent from `fields` becomes the empty string
(spec section 4.3, Word-style fill). -/
def renderSegment (fields : FieldMap) : DocxSegment → List Char
  | .lit s => s
  | .field k => (lookupField fields k).getD []

/-- Modelled from the spec: the single merge pass over one run of template
text. -/
def renderText (fields : FieldMap) (par : List DocxSegment) : List Char :=
  (par.map (renderSegment fields)).flatten

/-- Modelled from the spec: a Word document with body, headers, footers and
tables, each a list of paragraphs. -/
structure DocxDoc where
  body : List (List DocxSegment)
  headers : List (List DocxSegment)
  footers : List (List DocxSegment)
  tables : List (List DocxSegment)

/-- The rendered text of the whole filled document. -/
def renderedDocText (fields : FieldMap) (d : DocxDoc) : List Char :=
  renderText fields ((d.body ++ d.headers ++ d.footers ++ d.tables).flatten)

/-- A demonstration template carrying `{{ UNNO }}` both in the body and in a
table. -/
def unnoDemoDoc : DocxDoc :=
  ⟨[[.lit "UN NO: ".toList, .field "UNNO".toList, .lit " ".toList]],
   [[.lit "HDR ".toList]],
   [[.lit "FTR ".toList]],
   [[.lit "T: ".toList, .field "UNNO".toList]]⟩

/-- Claim C4: the Word-style fill substitutes every `{{ KEY }}` placeholder
anywhere in the document with `fields[KEY]`, an absent key becomes the empty
string, and for a template containing `{{ UNNO }}` with `UNNO ↦ 3265` the
rendered text contains `3265` and no literal `{{ UNNO }}` token remains. -/
theorem c4_word_fill_substitution :
    (∀ (fields : FieldMap) (a b : List DocxSegment) (k v : List Char),
      lookupField fields k = some v →
      renderText fields (a ++ .field k :: b)
        = renderText fields a ++ v ++ renderText fields b)
    ∧ (∀ (fields : FieldMap) (a b : List DocxSegment) (k : List Char),
      lookupField fields k = none →
      renderText fields (a ++ .field k :: b)
        = renderText fields a ++ renderText fields b)
    ∧ (renderedDocText [("UNNO".toList, "3265".toList)] unnoDemoDoc
        = "UN NO: 3265 HDR FTR T: 3265".toList
      ∧ containsSubstr
          (renderedDocText [("UNNO".toList, "3265".toList)] unnoDemoDoc)
          "3265".toList = true
      ∧ containsSubstr
          (renderedDocText [("UNNO".toList, "3265".toList)] unnoDemoDoc)
          (docxTok "UNNO".toList) = false) := by
  refine ⟨?_, ?_, by decide, by decide, by decide⟩
  · intro fields a b k v h
    simp [renderText, renderSegment, h]
  · intro fields a b k h
    simp [renderText, renderSegment, h]

/-- Witness for C4: substitution of a present key and erasure of an absent
key, at concrete inputs. -/
theorem c4_word_fill_substitution_witness :
    renderText [("UNNO".toList, "3265".toList)]
        ([.lit "No. ".toList] ++ .field "UNNO".toList :: [])
      = "No. ".toList ++ "3265".toList ++ []
    ∧ renderText [("UNNO".toList, "3265".toList)]
        ([.lit "Sub ".toList] ++ .field "SUBRISK".toList :: [])
      = renderText [("UNNO".toList, "3265".toList)] [.lit "Sub ".toList]
        ++ renderText [("UNNO".toList, "3265".toList)] [] :=
  ⟨c4_word_fill_substitution.1 _ _ _ _ _ (by decide),
   c4_word_fill_substitution.2.1 _ _ _ _ (by decide)⟩

/-!
Embedding of `textwrap.wrap` (CPython, default options), the engine behind
`format_address_by_chars` (src/main.py lines 133-136).  Defaults:
`expand_tabs=True, replace_whitespace=True, drop_whitespace=True,
break_long_words=True, break_on_hyphens=True, max_lines=None`, empty
indents.  Two documented simplifications: (1) `expandtabs` padding is folded
into the whitespace-to-space map, which only changes the lengths of
whitespace runs; (2) the splitter breaks on whitespace runs only, and the
hyphen refinement of `_handle_long_word` is likewise omitted, whereas with
`break_on_hyphens=True` CPython also breaks after in-word hyphens (it chunks
`ab-cd` as `ab-`, `cd`, so a hyphenated word can be split across lines even
when it fits within the width).  The model is therefore exact only on text
containing no hyphen-minus character, and every general theorem whose truth
depends on where breaks fall (the C5 round trip) carries a hyphen-free
hypothesis; the line-width bound (C2) holds for CPython regardless, since
hyphen handling only moves break points earlier.  Whitespace means the six
ASCII whitespace characters of `string.whitespace`. -/

/-- The characters of CPython `string.whitespace`. -/
def isSpace (c : Char) : Bool :=
  c == ' ' || c == '\t' || c == '\n' || c == '\x0b' || c == '\x0c' || c == '\r'

/-- `_munge_whitespace`: every whitespace character becomes a space. -/
def munge (s : List Char) : List Char :=
  s.map (fun c => if isSpace c then ' ' else c)

/-- `_split` on hyphen-free text: the maximal runs of whitespace and of
non-whitespace, in order. -/
def runSplit : List Char → List (List Char)
  | [] => []
  | [c] => [[c]]
  | c :: d :: rest =>
    match runSplit (d :: rest) with
    | [] => [[c]]
    | r :: rs =>
      if isSpace c == isSpace d then (c :: r) :: rs else [c] :: r :: rs

/-- Python `chunk.strip() == ''`: a chunk that is whitespace only (or
empty). -/
def isWsChunk (r : List Char) : Bool := r.all isSpace

/-- Total number of characters in a chunk list. -/
def chunkChars (cs : List (List Char)) : Nat := (cs.map List.length).sum

/-- The inner greedy loop of `_wrap_chunks`: move chunks onto the current
line while the line stays within `width`. -/
def takeGreedy (width cur : Nat) : List (List Char) → List (List Char) × List (List Char)
  | [] => ([], [])
  | c :: cs =>
    if cur + c.length ≤ width then
      let p := takeGreedy width (cur + c.length) cs
      (c :: p.1, p.2)
    else ([], c :: cs)

/-- One line-building pass of `_wrap_chunks`: greedy fill, then
`_handle_long_word` (with `break_long_words=True`) when the next chunk is
longer than the whole width.  Returns the current line's chunks and the
remaining ones. -/
def wrapStep (width : Nat) (chunks : List (List Char)) :
    List (List Char) × List (List Char) :=
  match takeGreedy width 0 chunks with
  | (cur, []) => (cur, [])
  | (cur, r :: rs) =>
    if width < r.length then
      (cur ++ [r.take (if width < 1 then 1 else width - chunkChars cur)],
        r.drop (if width < 1 then 1 else width - chunkChars cur) :: rs)
    else (cur, r :: rs)

/-- `drop_whitespace` at the end of a line: one trailing whitespace chunk is
removed. -/
def dropLastWs (l : List (List Char)) : List (List Char) :=
  match l.getLast? with
  | some r => if isWsChunk r then l.dropLast else l
  | none => l

/-- The outer loop of `_wrap_chunks`.  `linesExist` tracks whether a line
has been emitted (leading whitespace is dropped only then); the fuel only
bounds the number of loop iterations and is chosen large enough by
`textwrapWrap`. -/
def wrapChunksAuxF (width : Nat) : Nat → List (List Char) → Bool → List (List Char)
  | 0, _, _ => []
  | _ + 1, [], _ => []
  | fuel + 1, c :: cs, linesExist =>
    let chunks1 := if linesExist && isWsChunk c then cs else c :: cs
    let p := wrapStep width chunks1
    let cur := dropLastWs p.1
    if cur.isEmpty then wrapChunksAuxF width fuel p.2 linesExist
    else cur.flatten :: wrapChunksAuxF width fuel p.2 true

/-- `textwrap.wrap(text, width)` with default options: munge, split, wrap.
Each loop iteration strictly decreases `chunkChars + length`, so the chosen
fuel is never exhausted. -/
def textwrapWrap (width : Nat) (text : List Char) : List (List Char) :=
  wrapChunksAuxF width
    (chunkChars (runSplit (munge text)) + (runSplit (munge text)).length + 1)
    (runSplit (munge text)) false

/-- Python `"\n".join(lines)`. -/
def joinNl : List (List Char) → List Char
  | [] => []
  | [l] => l
  | l :: ls => l ++ '\n' :: joinNl ls

/-- `format_address_by_chars` (src/main.py lines 133-136): empty address
gives the empty string, otherwise the textwrap lines joined by newlines.
The source defaults `width` to 40. -/
def format_address_by_chars (address : List Char) (width : Nat) : List Char :=
  if address = [] then [] else joinNl (textwrapWrap width address)

/-- The whitespace-separated words of a string, in order (Python
`s.split()`). -/
def wsWords : List Char → List (List Char)
  | [] => []
  | c :: cs =>
    if isSpace c then wsWords cs
    else
      match cs with
      | [] => [[c]]
      | d :: _ =>
        if isSpace d then [c] :: wsWords cs
        else (c :: (wsWords cs).headD []) :: (wsWords cs).tail

example : textwrapWrap 3 "abcdef".toList = ["abc".toList, "def".toList] := by decide

example : textwrapWrap 5 "hello world".toList = ["hello".toList, "world".toList] := by decide

example : textwrapWrap 11 "hello world".toList = ["hello world".toList] := by decide

example : textwrapWrap 1 "a  b".toList = ["a".toList, "b".toList] := by decide

example : textwrapWrap 3 "  ".toList = [] := by decide

example : format_address_by_chars "hello world".toList 5 = "hello\nworld".toList := by decide

example : wsWords "  ab cd ".toList = ["ab".toList, "cd".toList] := by decide

example : runSplit "ab  cd".toList = ["ab".toList, "  ".toList, "cd".toList] := by decide

example : textwrapWrap 3 "aaaaaaa bb".toList
    = ["aaa".toList, "aaa".toList, "a".toList, "bb".toList] := by decide

example : textwrapWrap 5 "xy aaaaaaa bb".toList
    = ["xy aa".toList, "aaaaa".toList, "bb".toList] := by decide

example : textwrapWrap 4 "a\n\nb\tc".toList
    = ["a  b".toList, "c".toList] := by decide

example : textwrapWrap 4 "abc   def".toList = ["abc".toList, "def".toList] := by decide

example : textwrapWrap 3 "  lead".toList = ["  l".toList, "ead".toList] := by decide

lemma chunkChars_nil : chunkChars [] = 0 := rfl

lemma chunkChars_cons (c : List Char) (cs : List (List Char)) :
    chunkChars (c :: cs) = c.length + chunkChars cs := by
  simp [chunkChars]

lemma chunkChars_append (a b : List (List Char)) :
    chunkChars (a ++ b) = chunkChars a + chunkChars b := by
  simp [chunkChars]

lemma length_flatten_eq_chunkChars (l : List (List Char)) :
    l.flatten.length = chunkChars l := by
  simp [chunkChars]

lemma takeGreedy_le (width : Nat) :
    ∀ (l : List (List Char)) (cur : Nat), cur ≤ width →
      cur + chunkChars (takeGreedy width cur l).1 ≤ width := by
  intro l
  induction l with
  | nil => intro cur h; simpa [takeGreedy, chunkChars] using h
  | cons c cs ih =>
    intro cur h
    by_cases h2 : cur + c.length ≤ width
    · have h3 := ih (cur + c.length) h2
      simp only [takeGreedy, if_pos h2]
      rw [chunkChars_cons]
      omega
    · simp only [takeGreedy, if_neg h2, chunkChars_nil]
      omega

lemma takeGreedy_append (width : Nat) :
    ∀ (l : List (List Char)) (cur : Nat),
      (takeGreedy width cur l).1 ++ (takeGreedy width cur l).2 = l := by
  intro l
  induction l with
  | nil => intro cur; rfl
  | cons c cs ih =>
    intro cur
    by_cases h2 : cur + c.length ≤ width
    · simp only [takeGreedy, if_pos h2, List.cons_append]
      rw [ih]
    · simp [takeGreedy, if_neg h2]

lemma takeGreedy_nil_fst (width : Nat) {l : List (List Char)} {r : List Char}
    {rs : List (List Char)}
    (h : takeGreedy width 0 l = ([], r :: rs)) : width < r.length := by
  cases l with
  | nil => simp [takeGreedy] at h
  | cons c cs =>
    by_cases h2 : 0 + c.length ≤ width
    · simp only [takeGreedy, if_pos h2] at h
      exact absurd (congrArg Prod.fst h) (by simp)
    · simp only [takeGreedy, if_neg h2] at h
      obtain ⟨h3, h4⟩ := Prod.mk.injEq .. ▸ h
      obtain ⟨h5, h6⟩ := List.cons.injEq .. ▸ h4
      subst h5
      omega

lemma wrapStep_fst_chars {width : Nat} (hw : 1 ≤ width)
    (chunks : List (List Char)) :
    chunkChars (wrapStep width chunks).1 ≤ width := by
  have hg : chunkChars (takeGreedy width 0 chunks).1 ≤ width := by
    have := takeGreedy_le width chunks 0 (by omega)
    omega
  rw [wrapStep]
  rcases hG : takeGreedy width 0 chunks with ⟨cur, rest⟩
  rw [hG] at hg
  cases rest with
  | nil => exact hg
  | cons r rs =>
    dsimp only at hg ⊢
    by_cases h2 : width < r.length
    · rw [if_pos h2]
      simp only [chunkChars_append, chunkChars_cons, chunkChars_nil]
      have hsl : (if width < 1 then 1 else width - chunkChars cur) = width - chunkChars cur := by
        rw [if_neg (by omega)]
      rw [hsl]
      have : (r.take (width - chunkChars cur)).length ≤ width - chunkChars cur := by
        simp [List.length_take]
      omega
    · rw [if_neg h2]
      exact hg

lemma chunkChars_dropLast_le :
    ∀ l : List (List Char), chunkChars l.dropLast ≤ chunkChars l := by
  intro l
  induction l with
  | nil => simp
  | cons c cs ih =>
    cases cs with
    | nil => simp [chunkChars]
    | cons d ds =>
      rw [List.dropLast_cons₂, chunkChars_cons, chunkChars_cons]
      omega

lemma dropLastWs_chars_le (l : List (List Char)) :
    chunkChars (dropLastWs l) ≤ chunkChars l := by
  rw [dropLastWs]
  rcases hL : l.getLast? with _ | r
  · exact le_refl _
  · dsimp only
    by_cases h2 : isWsChunk r = true
    · rw [if_pos h2]
      exact chunkChars_dropLast_le l
    · rw [if_neg h2]

lemma wrapChunksAuxF_line_length {width : Nat} (hw : 1 ≤ width) :
    ∀ (fuel : Nat) (chunks : List (List Char)) (b : Bool),
      ∀ line ∈ wrapChunksAuxF width fuel chunks b, line.length ≤ width := by
  intro fuel
  induction fuel with
  | zero => intro chunks b line h; simp [wrapChunksAuxF] at h
  | succ n ih =>
    intro chunks b line h
    cases chunks with
    | nil => simp [wrapChunksAuxF] at h
    | cons c cs =>
      simp only [wrapChunksAuxF] at h
      set chunks1 := if b && isWsChunk c then cs else c :: cs with hc1
      by_cases hcur : (dropLastWs (wrapStep width chunks1).1).isEmpty
      · rw [if_pos hcur] at h
        exact ih _ _ line h
      · rw [if_neg hcur] at h
        rcases List.mem_cons.mp h with h2 | h2
        · rw [h2, length_flatten_eq_chunkChars]
          calc chunkChars (dropLastWs (wrapStep width chunks1).1)
              ≤ chunkChars (wrapStep width chunks1).1 := dropLastWs_chars_le _
            _ ≤ width := wrapStep_fst_chars hw chunks1
        · exact ih _ _ line h2

/-- Counterexample to claim C2 as stated: at address `abcdef` and width 3
the code splits the single word `abcdef` across two lines (no line exceeds
the width; instead the word is broken), contradicting never splitting a
word. -/
theorem c2_counterexample :
    format_address_by_chars "abcdef".toList 3 = "abc\ndef".toList
    ∧ wsWords "abcdef".toList = ["abcdef".toList]
    ∧ ¬ ∃ line ∈ textwrapWrap 3 "abcdef".toList, "abcdef".toList <:+: line := by
  refine ⟨by decide, by decide, ?_⟩
  intro ⟨line, hmem, hinf⟩
  rw [← containsSubstr_iff_isInfix] at hinf
  rw [show textwrapWrap 3 "abcdef".toList = ["abc".toList, "def".toList] from by decide]
    at hmem
  rcases List.mem_cons.mp hmem with h | h
  · rw [h] at hinf
    exact absurd hinf (by decide)
  · rw [List.mem_singleton.mp h] at hinf
    exact absurd hinf (by decide)

/-- Claim C2 (amended): for every non-empty address and width at least 1,
the wrap joins its lines with newline separators and every line is at most
`width` characters long; a word longer than `width` is split across lines
rather than overflowing. -/
theorem c2_amended_line_width :
    ∀ (address : List Char) (width : Nat), 1 ≤ width → address ≠ [] →
      format_address_by_chars address width = joinNl (textwrapWrap width address)
      ∧ ∀ line ∈ textwrapWrap width address, line.length ≤ width := by
  intro address width hw hne
  constructor
  · rw [format_address_by_chars, if_neg hne]
  · intro line h
    exact wrapChunksAuxF_line_length hw _ _ _ line h

/-- Witness for the amended C2 at a concrete address and width. -/
theorem c2_amended_line_width_witness :
    format_address_by_chars "hello world".toList 5
        = joinNl (textwrapWrap 5 "hello world".toList)
      ∧ ∀ line ∈ textwrapWrap 5 "hello world".toList, line.length ≤ 5 :=
  c2_amended_line_width "hello world".toList 5 (by decide) (by decide)

lemma wsWords_cons_space {c : Char} {cs : List Char} (h : isSpace c = true) :
    wsWords (c :: cs) = wsWords cs := by
  rw [wsWords.eq_def]
  dsimp only
  rw [if_pos h]

lemma wsWords_single_nonspace {c : Char} (h : isSpace c = false) :
    wsWords [c] = [[c]] := by
  rw [wsWords.eq_def]
  dsimp only
  rw [if_neg (by simp [h])]

lemma wsWords_cons_cons_space {c d : Char} {cs : List Char}
    (h : isSpace c = false) (hd : isSpace d = true) :
    wsWords (c :: d :: cs) = [c] :: wsWords (d :: cs) := by
  rw [wsWords, if_neg (by simp [h])]
  rw [if_pos hd]

lemma wsWords_cons_cons_nonspace {c d : Char} {cs : List Char}
    (h : isSpace c = false) (hd : isSpace d = false) :
    wsWords (c :: d :: cs)
      = (c :: (wsWords (d :: cs)).headD []) :: (wsWords (d :: cs)).tail := by
  rw [wsWords, if_neg (by simp [h])]
  rw [if_neg (by simp [hd])]

lemma wsWords_ne_nil {c : Char} (cs : List Char) (h : isSpace c = false) :
    wsWords (c :: cs) ≠ [] := by
  cases cs with
  | nil => rw [wsWords_single_nonspace h]; simp
  | cons d ds =>
    by_cases hd : isSpace d = true
    · rw [wsWords_cons_cons_space h hd]; simp
    · rw [wsWords_cons_cons_nonspace h (by simpa using hd)]; simp

lemma wsWords_sep_append {m : Char} (hm : isSpace m = true) :
    ∀ (a b : List Char), wsWords (a ++ m :: b) = wsWords a ++ wsWords b := by
  intro a
  induction a with
  | nil =>
    intro b
    rw [List.nil_append, wsWords_cons_space hm, wsWords]
    rfl
  | cons c cs ih =>
    intro b
    by_cases hc : isSpace c = true
    · rw [List.cons_append, wsWords_cons_space hc, ih, wsWords_cons_space hc]
    · replace hc : isSpace c = false := by simpa using hc
      cases cs with
      | nil =>
        rw [List.cons_append, List.nil_append, wsWords_cons_cons_space hc hm,
          wsWords_cons_space hm, wsWords_single_nonspace hc]
        rfl
      | cons d ds =>
        by_cases hd : isSpace d = true
        · rw [List.cons_append, List.cons_append,
            wsWords_cons_cons_space hc hd, ← List.cons_append, ih,
            wsWords_cons_cons_space hc hd]
          rfl
        · replace hd : isSpace d = false := by simpa using hd
          have hne := wsWords_ne_nil ds hd
          rw [List.cons_append, List.cons_append,
            wsWords_cons_cons_nonspace hc hd, ← List.cons_append, ih,
            wsWords_cons_cons_nonspace hc hd]
          rcases hW : wsWords (d :: ds) with _ | ⟨w, ws⟩
          · exact absurd hW hne
          · simp

lemma wsWords_allws : ∀ {m : List Char}, (∀ c ∈ m, isSpace c = true) →
    wsWords m = [] := by
  intro m
  induction m with
  | nil => intro _; rfl
  | cons c cs ih =>
    intro h
    rw [wsWords_cons_space (h c (List.mem_cons_self c cs))]
    exact ih (fun x hx => h x (List.mem_cons_of_mem c hx))

lemma wsWords_leading_ws : ∀ {m : List Char} (b : List Char),
    (∀ c ∈ m, isSpace c = true) → wsWords (m ++ b) = wsWords b := by
  intro m
  induction m with
  | nil => intro b _; rfl
  | cons c cs ih =>
    intro b h
    rw [List.cons_append, wsWords_cons_space (h c (List.mem_cons_self c cs))]
    exact ih b (fun x hx => h x (List.mem_cons_of_mem c hx))

lemma wsWords_ws_suffix {m : List Char} (a : List Char)
    (h : ∀ c ∈ m, isSpace c = true) : wsWords (a ++ m) = wsWords a := by
  cases m with
  | nil => rw [List.append_nil]
  | cons x m' =>
    rw [wsWords_sep_append (h x (List.mem_cons_self x m')), wsWords_allws
      (fun c hc => h c (List.mem_cons_of_mem x hc)), List.append_nil]

lemma wsWords_append_head_space {a b : List Char} {m : Char} {b' : List Char}
    (hb : b = m :: b') (hm : isSpace m = true) :
    wsWords (a ++ b) = wsWords a ++ wsWords b := by
  subst hb
  rw [wsWords_sep_append hm, wsWords_cons_space hm]

lemma wsWords_append_last_space {a b : List Char} {x : List Char} {m : Char}
    (ha : a = x ++ [m]) (hm : isSpace m = true) :
    wsWords (a ++ b) = wsWords a ++ wsWords b := by
  subst ha
  rw [List.append_assoc, List.singleton_append, wsWords_sep_append hm]
  have h2 : wsWords (x ++ [m]) = wsWords x := wsWords_ws_suffix x (by simpa using hm)
  rw [h2]

lemma wsWords_joinNl_cons (l : List Char) (ls : List (List Char)) :
    wsWords (joinNl (l :: ls)) = wsWords l ++ wsWords (joinNl ls) := by
  cases ls with
  | nil => simp [joinNl, wsWords]
  | cons l2 ls2 =>
    rw [show joinNl (l :: l2 :: ls2) = l ++ '\n' :: joinNl (l2 :: ls2) from rfl]
    rw [wsWords_sep_append (by decide)]

/-- Adjacent chunks are never two words: between any two neighbouring chunks
at least one is whitespace. -/
def ChunkRel (a b : List Char) : Prop := isWsChunk a = true ∨ isWsChunk b = true

lemma runSplit_head : ∀ (rest : List Char) (d : Char), ∃ t rs,
    runSplit (d :: rest) = (d :: t) :: rs ∧ ∀ x ∈ t, isSpace x = isSpace d := by
  intro rest
  induction rest with
  | nil => intro d; exact ⟨[], [], rfl, by simp⟩
  | cons e rest' ih =>
    intro d
    obtain ⟨t', rs', heq, hhom⟩ := ih e
    by_cases hde : (isSpace d == isSpace e) = true
    · refine ⟨e :: t', rs', ?_, ?_⟩
      · rw [runSplit, heq]
        dsimp only
        rw [if_pos hde]
      · intro x hx
        have hde2 : isSpace d = isSpace e := by simpa using hde
        rcases List.mem_cons.mp hx with h | h
        · rw [h, hde2]
        · rw [hhom x h, hde2]
    · refine ⟨[], (e :: t') :: rs', ?_, by simp⟩
      rw [runSplit, heq]
      dsimp only
      rw [if_neg hde]

lemma runSplit_flatten : ∀ s : List Char, (runSplit s).flatten = s := by
  intro s
  induction s with
  | nil => rfl
  | cons c cs ih =>
    cases cs with
    | nil => rfl
    | cons d rest =>
      obtain ⟨t, rs, heq, _⟩ := runSplit_head rest d
      have hflat : t ++ rs.flatten = rest := by
        have h2 := heq ▸ ih
        simpa using h2
      rw [runSplit, heq]
      dsimp only
      by_cases hcd : (isSpace c == isSpace d) = true
      · rw [if_pos hcd]
        simp [hflat]
      · rw [if_neg hcd]
        simp [hflat]

lemma runSplit_ne_nil : ∀ (s : List Char), ∀ r ∈ runSplit s, r ≠ [] := by
  intro s
  induction s with
  | nil => intro r hr; simp [runSplit] at hr
  | cons c cs ih =>
    cases cs with
    | nil =>
      intro r hr
      rw [show runSplit [c] = [[c]] from rfl] at hr
      rw [List.mem_singleton.mp hr]
      simp
    | cons d rest =>
      obtain ⟨t, rs, heq, _⟩ := runSplit_head rest d
      intro r hr
      rw [runSplit, heq] at hr
      dsimp only at hr
      have hmem_rs : ∀ x ∈ rs, x ≠ [] := by
        intro x hx
        exact ih x (heq ▸ List.mem_cons_of_mem (d :: t) hx)
      by_cases hcd : (isSpace c == isSpace d) = true
      · rw [if_pos hcd] at hr
        rcases List.mem_cons.mp hr with h | h
        · rw [h]; simp
        · exact hmem_rs r h
      · rw [if_neg hcd] at hr
        rcases List.mem_cons.mp hr with h | h
        · rw [h]; simp
        · rcases List.mem_cons.mp h with h2 | h2
          · rw [h2]; simp
          · exact hmem_rs r h2

lemma isWsChunk_cons {c : Char} {t : List Char} :
    isWsChunk (c :: t) = (isSpace c && isWsChunk t) := by
  simp [isWsChunk]

lemma isWsChunk_of_homog {d : Char} {t : List Char}
    (hd : isSpace d = true) (hhom : ∀ x ∈ t, isSpace x = isSpace d) :
    isWsChunk (d :: t) = true := by
  simp only [isWsChunk, List.all_cons, Bool.and_eq_true, hd, true_and,
    List.all_eq_true]
  intro x hx
  rw [hhom x hx, hd]

lemma runSplit_chain : ∀ s : List Char, (runSplit s).Chain' ChunkRel := by
  intro s
  induction s with
  | nil => simp [runSplit]
  | cons c cs ih =>
    cases cs with
    | nil =>
      rw [show runSplit [c] = [[c]] from rfl]
      simp
    | cons d rest =>
      obtain ⟨t, rs, heq, hhom⟩ := runSplit_head rest d
      rw [heq] at ih
      obtain ⟨hrel, hch⟩ := List.chain'_cons'.mp ih
      rw [runSplit, heq]
      dsimp only
      by_cases hcd : (isSpace c == isSpace d) = true
      · have hcd2 : isSpace c = isSpace d := by simpa using hcd
        rw [if_pos hcd]
        refine List.chain'_cons'.mpr ⟨?_, hch⟩
        intro y hy
        rcases hrel y hy with h | h
        · left
          rw [isWsChunk_cons] at h ⊢
          simp only [Bool.and_eq_true] at h ⊢
          exact ⟨hcd2 ▸ h.1, by rw [isWsChunk_cons]; simp [h.1, h.2]⟩
        · right; exact h
      · have hcd2 : isSpace c ≠ isSpace d := by simpa using hcd
        rw [if_neg hcd]
        refine List.chain'_cons'.mpr ⟨?_, ih⟩
        intro y hy
        simp only [List.head?_cons, Option.mem_def, Option.some.injEq] at hy
        subst hy
        by_cases hc : isSpace c = true
        · left
          simp [isWsChunk, hc]
        · right
          have hd : isSpace d = true := by
            cases hd2 : isSpace d
            · exact absurd (by rw [hd2]; simpa using hc) hcd2
            · rfl
          exact isWsChunk_of_homog hd hhom

lemma runSplit_filter_eq_wsWords :
    ∀ s : List Char,
      (runSplit s).filter (fun r => !(isWsChunk r)) = wsWords s := by
  intro s
  induction s with
  | nil => rfl
  | cons c cs ih =>
    cases cs with
    | nil =>
      rw [show runSplit [c] = [[c]] from rfl]
      by_cases hc : isSpace c = true
      · rw [wsWords_cons_space hc]
        simp [isWsChunk, hc, wsWords]
      · replace hc : isSpace c = false := by simpa using hc
        rw [wsWords_single_nonspace hc]
        simp [isWsChunk, hc]
    | cons d rest =>
      obtain ⟨t, rs, heq, hhom⟩ := runSplit_head rest d
      rw [heq] at ih
      rw [runSplit, heq]
      dsimp only
      by_cases hcd : (isSpace c == isSpace d) = true
      · have hcd2 : isSpace c = isSpace d := by simpa using hcd
        rw [if_pos hcd]
        by_cases hc : isSpace c = true
        · have hd : isSpace d = true := hcd2 ▸ hc
          have hwsdt : isWsChunk (d :: t) = true := isWsChunk_of_homog hd hhom
          have hwscdt : isWsChunk (c :: d :: t) = true := by
            rw [isWsChunk_cons, hc, hwsdt]; rfl
          rw [List.filter_cons, hwscdt]
          rw [List.filter_cons, hwsdt] at ih
          simp only [Bool.not_true] at ih ⊢
          rw [wsWords_cons_space hc]
          simpa using ih
        · replace hc : isSpace c = false := by simpa using hc
          have hd : isSpace d = false := hcd2 ▸ hc
          have hwsdt : isWsChunk (d :: t) = false := by
            rw [isWsChunk_cons, hd]; rfl
          have hwscdt : isWsChunk (c :: d :: t) = false := by
            rw [isWsChunk_cons, hc]; rfl
          rw [List.filter_cons, hwscdt]
          rw [List.filter_cons, hwsdt] at ih
          simp only [Bool.not_false, if_pos] at ih ⊢
          rw [wsWords_cons_cons_nonspace hc hd, ← ih]
          simp
      · have hcd2 : isSpace c ≠ isSpace d := by simpa using hcd
        rw [if_neg hcd]
        by_cases hc : isSpace c = true
        · have hwsc : isWsChunk [c] = true := by simp [isWsChunk, hc]
          rw [List.filter_cons, hwsc]
          simp only [Bool.not_true]
          rw [wsWords_cons_space hc, ← ih]
          simp
        · replace hc : isSpace c = false := by simpa using hc
          have hd : isSpace d = true := by
            cases hd2 : isSpace d
            · exact absurd (by rw [hd2]; simpa using hc) hcd2
            · rfl
          have hwsc : isWsChunk [c] = false := by simp [isWsChunk, hc]
          rw [List.filter_cons, hwsc]
          simp only [Bool.not_false, if_pos]
          rw [ih, wsWords_cons_cons_space hc hd]

lemma wsWords_munge : ∀ s : List Char, wsWords (munge s) = wsWords s := by
  intro s
  induction s with
  | nil => rfl
  | cons c cs ih =>
    have hclass : ∀ x : Char, isSpace (if isSpace x then ' ' else x) = isSpace x := by
      intro x
      by_cases hx : isSpace x = true
      · rw [if_pos hx, hx]; rfl
      · rw [if_neg hx]
    by_cases hc : isSpace c = true
    · rw [show munge (c :: cs) = (if isSpace c then ' ' else c) :: munge cs from rfl]
      rw [wsWords_cons_space (by rw [hclass c, hc]), wsWords_cons_space hc, ih]
    · replace hc : isSpace c = false := by simpa using hc
      have hcm : (if isSpace c then ' ' else c) = c := by rw [if_neg (by simp [hc])]
      rw [show munge (c :: cs) = (if isSpace c then ' ' else c) :: munge cs from rfl,
        hcm]
      cases cs with
      | nil => rfl
      | cons d ds =>
        rw [show munge (d :: ds) = (if isSpace d then ' ' else d) :: munge ds from rfl]
        by_cases hd : isSpace d = true
        · rw [wsWords_cons_cons_space hc (by rw [hclass d, hd]),
            wsWords_cons_cons_space hc hd]
          rw [show (if isSpace d then ' ' else d) :: munge ds = munge (d :: ds) from rfl,
            ih]
        · replace hd : isSpace d = false := by simpa using hd
          rw [wsWords_cons_cons_nonspace hc (by rw [hclass d, hd]),
            wsWords_cons_cons_nonspace hc hd]
          rw [show (if isSpace d then ' ' else d) :: munge ds = munge (d :: ds) from rfl,
            ih]

/-- The invariant of the chunk list through the wrap loop: chunks are
non-empty, every word chunk fits within the width, and no two neighbouring
chunks are both words. -/
def WrapInv (w : Nat) (cs : List (List Char)) : Prop :=
  (∀ r ∈ cs, r ≠ []) ∧ (∀ r ∈ cs, isWsChunk r = false → r.length ≤ w)
    ∧ cs.Chain' ChunkRel

lemma wrapStep_cases (w : Nat) (cs : List (List Char)) :
    (∃ cur, takeGreedy w 0 cs = (cur, []) ∧ wrapStep w cs = (cur, []))
    ∨ (∃ cur r rs, takeGreedy w 0 cs = (cur, r :: rs) ∧ ¬ w < r.length
        ∧ wrapStep w cs = (cur, r :: rs))
    ∨ (∃ cur r rs, takeGreedy w 0 cs = (cur, r :: rs) ∧ w < r.length
        ∧ wrapStep w cs
          = (cur ++ [r.take (if w < 1 then 1 else w - chunkChars cur)],
             r.drop (if w < 1 then 1 else w - chunkChars cur) :: rs)) := by
  rcases hG : takeGreedy w 0 cs with ⟨cur, rest⟩
  cases rest with
  | nil =>
    left
    exact ⟨cur, rfl, by rw [wrapStep, hG]⟩
  | cons r rs =>
    by_cases hlt : w < r.length
    · right; right
      refine ⟨cur, r, rs, rfl, hlt, ?_⟩
      rw [wrapStep, hG]
      dsimp only
      rw [if_pos hlt]
    · right; left
      refine ⟨cur, r, rs, rfl, hlt, ?_⟩
      rw [wrapStep, hG]
      dsimp only
      rw [if_neg hlt]

lemma takeGreedy_split {w : Nat} {cs cur rest : List (List Char)}
    (hG : takeGreedy w 0 cs = (cur, rest)) : cur ++ rest = cs := by
  have h := takeGreedy_append w cs 0
  rw [hG] at h
  exact h

lemma wrapStep_flatten (w : Nat) (cs : List (List Char)) :
    (wrapStep w cs).1.flatten ++ (wrapStep w cs).2.flatten = cs.flatten := by
  rcases wrapStep_cases w cs with ⟨cur, hG, hW⟩ | ⟨cur, r, rs, hG, hlt, hW⟩
    | ⟨cur, r, rs, hG, hlt, hW⟩
  · rw [hW, ← takeGreedy_split hG]
    simp
  · rw [hW, ← takeGreedy_split hG]
    simp [List.flatten_append]
  · rw [hW, ← takeGreedy_split hG]
    simp only [List.flatten_append, List.flatten_cons, List.flatten_nil,
      List.append_nil, List.append_assoc]
    rw [← List.append_assoc (List.take _ r), List.take_append_drop]

lemma wrapStep_measure {w : Nat} {cs : List (List Char)} (h : cs ≠ []) :
    chunkChars (wrapStep w cs).2 + (wrapStep w cs).2.length
      < chunkChars cs + cs.length := by
  rcases wrapStep_cases w cs with ⟨cur, hG, hW⟩ | ⟨cur, r, rs, hG, hlt, hW⟩
    | ⟨cur, r, rs, hG, hlt, hW⟩
  · rw [hW]
    cases cs with
    | nil => exact absurd rfl h
    | cons c cs' =>
      simp only [chunkChars_nil, List.length_nil, chunkChars_cons, List.length_cons]
      omega
  · rw [hW]
    have happ := takeGreedy_split hG
    have hcur : cur ≠ [] := by
      intro h0
      rw [h0] at hG
      exact hlt (takeGreedy_nil_fst w hG)
    rw [← happ, chunkChars_append, List.length_append]
    cases cur with
    | nil => exact absurd rfl hcur
    | cons c0 cur' =>
      simp only [chunkChars_cons, List.length_cons]
      omega
  · rw [hW]
    have happ := takeGreedy_split hG
    rw [← happ, chunkChars_append, List.length_append]
    simp only [chunkChars_cons, List.length_cons, List.length_drop]
    by_cases hw1 : w < 1
    · rw [if_pos hw1]
      omega
    · rw [if_neg hw1]
      omega

lemma wrapStep_inv {w : Nat} (hw : 1 ≤ w) {cs : List (List Char)}
    (hInv : WrapInv w cs) : WrapInv w (wrapStep w cs).2 := by
  obtain ⟨hne, hbnd, hch⟩ := hInv
  rcases wrapStep_cases w cs with ⟨cur, hG, hW⟩ | ⟨cur, r, rs, hG, hlt, hW⟩
    | ⟨cur, r, rs, hG, hlt, hW⟩
  · rw [hW]
    exact ⟨by simp, by simp, by simp⟩
  · rw [hW]
    have happ := takeGreedy_split hG
    refine ⟨fun x hx => hne x (happ ▸ List.mem_append_right cur hx),
      fun x hx hxw => hbnd x (happ ▸ List.mem_append_right cur hx) hxw, ?_⟩
    rw [← happ] at hch
    exact (List.chain'_append.mp hch).2.1
  · rw [hW]
    have happ := takeGreedy_split hG
    have hrmem : r ∈ cs := happ ▸ List.mem_append_right cur (List.mem_cons_self r rs)
    have hrws : isWsChunk r = true := by
      by_contra h'
      exact absurd (hbnd r hrmem (by simpa using h')) (by omega)
    have hrall : ∀ x ∈ r, isSpace x = true := by
      simpa [isWsChunk, List.all_eq_true] using hrws
    have hsl : (if w < 1 then 1 else w - chunkChars cur) = w - chunkChars cur := by
      rw [if_neg (by omega)]
    have hdropne : r.drop (if w < 1 then 1 else w - chunkChars cur) ≠ [] := by
      rw [hsl, ← List.length_pos_iff_ne_nil, List.length_drop]
      omega
    have hdropws : isWsChunk (r.drop (if w < 1 then 1 else w - chunkChars cur)) = true := by
      simp only [isWsChunk, List.all_eq_true]
      intro x hx
      exact hrall x (List.mem_of_mem_drop hx)
    refine ⟨?_, ?_, ?_⟩
    · intro x hx
      rcases List.mem_cons.mp hx with h2 | h2
      · rw [h2]; exact hdropne
      · exact hne x (happ ▸ List.mem_append_right cur (List.mem_cons_of_mem r h2))
    · intro x hx hxw
      rcases List.mem_cons.mp hx with h2 | h2
      · rw [h2] at hxw
        exact absurd hdropws (by rw [hxw]; simp)
      · exact hbnd x (happ ▸ List.mem_append_right cur (List.mem_cons_of_mem r h2)) hxw
    · rw [← happ] at hch
      have hch2 := (List.chain'_append.mp hch).2.1
      obtain ⟨_, hchrs⟩ := List.chain'_cons'.mp hch2
      refine List.chain'_cons'.mpr ⟨fun y _ => Or.inl hdropws, hchrs⟩

lemma wrapStep_boundary {w : Nat} (hw : 1 ≤ w) {cs : List (List Char)}
    (hInv : WrapInv w cs) :
    wsWords ((wrapStep w cs).1.flatten ++ (wrapStep w cs).2.flatten)
      = wsWords (wrapStep w cs).1.flatten ++ wsWords (wrapStep w cs).2.flatten := by
  obtain ⟨hne, hbnd, hch⟩ := hInv
  rcases wrapStep_cases w cs with ⟨cur, hG, hW⟩ | ⟨cur, r, rs, hG, hlt, hW⟩
    | ⟨cur, r, rs, hG, hlt, hW⟩
  · rw [hW]
    simp [wsWords]
  · rw [hW]
    have happ := takeGreedy_split hG
    cases hcur : cur with
    | nil => simp [wsWords]
    | cons c0 cur' =>
      rw [← hcur]
      have hcurne : cur ≠ [] := by rw [hcur]; simp
      rw [← happ] at hch
      obtain ⟨_, _, hbd⟩ := List.chain'_append.mp hch
      have hrel : ChunkRel (cur.getLast hcurne) r := by
        apply hbd
        · rw [List.getLast?_eq_getLast cur hcurne]; rfl
        · rfl
      have hrmem : r ∈ cs := happ ▸ List.mem_append_right cur (List.mem_cons_self r rs)
      rcases hrel with hL | hr
      · -- the line ends in a whitespace chunk
        have hLmem : cur.getLast hcurne ∈ cs :=
          happ ▸ List.mem_append_left _ (List.getLast_mem hcurne)
        have hLne : cur.getLast hcurne ≠ [] := hne _ hLmem
        have hLall : ∀ x ∈ cur.getLast hcurne, isSpace x = true := by
          simpa [isWsChunk, List.all_eq_true] using hL
        have hm : isSpace ((cur.getLast hcurne).getLast hLne) = true :=
          hLall _ (List.getLast_mem hLne)
        have ha : cur.flatten = (cur.dropLast.flatten
            ++ (cur.getLast hcurne).dropLast)
            ++ [(cur.getLast hcurne).getLast hLne] := by
          conv =>
            lhs
            rw [← List.dropLast_concat_getLast hcurne]
          rw [List.flatten_append, List.flatten_cons, List.flatten_nil,
            List.append_nil]
          conv =>
            lhs
            rw [← List.dropLast_concat_getLast hLne]
          exact (List.append_assoc _ _ _).symm
        exact wsWords_append_last_space ha hm
      · -- the next chunk is whitespace
        have hrne : r ≠ [] := hne r hrmem
        have hrall : ∀ x ∈ r, isSpace x = true := by
          simpa [isWsChunk, List.all_eq_true] using hr
        obtain ⟨m, r', hr2⟩ : ∃ m r', r = m :: r' := by
          cases r with
          | nil => exact absurd rfl hrne
          | cons a b => exact ⟨a, b, rfl⟩
        have hb : (r :: rs).flatten = m :: (r' ++ rs.flatten) := by
          rw [List.flatten_cons, hr2]
          rfl
        exact wsWords_append_head_space hb (hrall m (hr2 ▸ List.mem_cons_self m r'))
  · rw [hW]
    have happ := takeGreedy_split hG
    have hrmem : r ∈ cs := happ ▸ List.mem_append_right cur (List.mem_cons_self r rs)
    have hrws : isWsChunk r = true := by
      by_contra h'
      exact absurd (hbnd r hrmem (by simpa using h')) (by omega)
    have hrall : ∀ x ∈ r, isSpace x = true := by
      simpa [isWsChunk, List.all_eq_true] using hrws
    have hsl : (if w < 1 then 1 else w - chunkChars cur) = w - chunkChars cur := by
      rw [if_neg (by omega)]
    have hdropne : r.drop (if w < 1 then 1 else w - chunkChars cur) ≠ [] := by
      rw [hsl, ← List.length_pos_iff_ne_nil, List.length_drop]
      omega
    obtain ⟨m, r', hd2⟩ : ∃ m r',
        r.drop (if w < 1 then 1 else w - chunkChars cur) = m :: r' := by
      cases hp : r.drop (if w < 1 then 1 else w - chunkChars cur) with
      | nil => exact absurd hp hdropne
      | cons a b => exact ⟨a, b, rfl⟩
    have hb : (r.drop (if w < 1 then 1 else w - chunkChars cur) :: rs).flatten
        = m :: (r' ++ rs.flatten) := by
      rw [List.flatten_cons, hd2]
      rfl
    exact wsWords_append_head_space hb
      (hrall m (List.mem_of_mem_drop (hd2 ▸ List.mem_cons_self m r')))

lemma wrapInv_tail {w : Nat} {c : List Char} {cs : List (List Char)}
    (h : WrapInv w (c :: cs)) : WrapInv w cs :=
  ⟨fun r hr => h.1 r (List.mem_cons_of_mem c hr),
   fun r hr => h.2.1 r (List.mem_cons_of_mem c hr),
   (List.chain'_cons'.mp h.2.2).2⟩

lemma wrapChunksAuxF_nil (w : Nat) : ∀ (n : Nat) (b : Bool),
    wrapChunksAuxF w n [] b = [] := by
  intro n b
  cases n <;> rfl

lemma wsWords_dropLastWs (l : List (List Char)) :
    wsWords (dropLastWs l).flatten = wsWords l.flatten := by
  rw [dropLastWs]
  rcases hL : l.getLast? with _ | r
  · rfl
  · dsimp only
    by_cases h2 : isWsChunk r = true
    · rw [if_pos h2]
      have hlne : l ≠ [] := by
        intro h0
        rw [h0] at hL
        simp at hL
      have hr : l.getLast hlne = r := by
        have h3 := List.getLast?_eq_getLast l hlne
        rw [hL] at h3
        exact (Option.some.injEq .. ▸ h3).symm
      conv =>
        rhs
        rw [← List.dropLast_concat_getLast hlne]
      rw [List.flatten_append, List.flatten_cons, List.flatten_nil,
        List.append_nil, hr]
      exact (wsWords_ws_suffix _ (by simpa [isWsChunk, List.all_eq_true] using h2)).symm
    · rw [if_neg h2]

lemma dropLastWs_nil {l : List (List Char)} (h : dropLastWs l = []) :
    wsWords l.flatten = [] := by
  rw [dropLastWs] at h
  rcases hL : l.getLast? with _ | r
  · rw [hL] at h
    dsimp only at h
    rw [h]
    rfl
  · rw [hL] at h
    dsimp only at h
    by_cases h2 : isWsChunk r = true
    · rw [if_pos h2] at h
      have hlne : l ≠ [] := by
        intro h0
        rw [h0] at hL
        simp at hL
      have hr : l.getLast hlne = r := by
        have h3 := List.getLast?_eq_getLast l hlne
        rw [hL] at h3
        exact (Option.some.injEq .. ▸ h3).symm
      have hsing : l = [r] := by
        have h4 := List.dropLast_concat_getLast hlne
        rw [h, hr] at h4
        exact h4.symm
      rw [hsing, List.flatten_cons, List.flatten_nil, List.append_nil]
      exact wsWords_allws (by simpa [isWsChunk, List.all_eq_true] using h2)
    · rw [if_neg h2] at h
      rw [h] at hL
      simp at hL

lemma wrapChunksAuxF_succ (w n : Nat) (c : List Char) (cs : List (List Char))
    (b : Bool) :
    wrapChunksAuxF w (n + 1) (c :: cs) b
      = if (dropLastWs (wrapStep w (if b && isWsChunk c then cs else c :: cs)).1).isEmpty
        then wrapChunksAuxF w n
          (wrapStep w (if b && isWsChunk c then cs else c :: cs)).2 b
        else (dropLastWs (wrapStep w (if b && isWsChunk c then cs else c :: cs)).1).flatten
          :: wrapChunksAuxF w n
            (wrapStep w (if b && isWsChunk c then cs else c :: cs)).2 true := by
  rw [wrapChunksAuxF]

lemma roundtrip_aux {w : Nat} (hw : 1 ≤ w) :
    ∀ (fuel : Nat) (chunks : List (List Char)) (b : Bool),
      WrapInv w chunks → chunkChars chunks + chunks.length < fuel →
      wsWords (joinNl (wrapChunksAuxF w fuel chunks b))
        = wsWords chunks.flatten := by
  intro fuel
  induction fuel with
  | zero => intro chunks b _ hf; exact absurd hf (Nat.not_lt_zero _)
  | succ n ih =>
    intro chunks b hInv hf
    cases chunks with
    | nil => rfl
    | cons c cs =>
      rw [wrapChunksAuxF_succ]
      have hInv1 : WrapInv w (if b && isWsChunk c then cs else c :: cs) := by
        by_cases hb : (b && isWsChunk c) = true
        · rw [if_pos hb]
          exact wrapInv_tail hInv
        · rw [if_neg hb]
          exact hInv
      have hflat1 : wsWords (if b && isWsChunk c then cs else c :: cs).flatten
          = wsWords (c :: cs).flatten := by
        by_cases hb : (b && isWsChunk c) = true
        · rw [if_pos hb]
          have hcws : isWsChunk c = true := (Bool.and_eq_true .. ▸ hb).2
          rw [List.flatten_cons]
          exact (wsWords_leading_ws _
            (by simpa [isWsChunk, List.all_eq_true] using hcws)).symm
        · rw [if_neg hb]
      have hm1 : chunkChars (if b && isWsChunk c then cs else c :: cs)
          + (if b && isWsChunk c then cs else c :: cs).length
          ≤ chunkChars (c :: cs) + (c :: cs).length := by
        by_cases hb : (b && isWsChunk c) = true
        · rw [if_pos hb]
          simp only [chunkChars_cons, List.length_cons]
          omega
        · rw [if_neg hb]
      rw [← hflat1]
      set chunks1 := (if b && isWsChunk c then cs else c :: cs) with hch1
      by_cases hnil : chunks1 = []
      · rw [hnil]
        rw [show wrapStep w ([] : List (List Char)) = ([], []) from rfl]
        simp only [dropLastWs, List.getLast?_nil, List.isEmpty_nil, if_pos]
        rw [wrapChunksAuxF_nil]
        rfl
      · have hm2 : chunkChars (wrapStep w chunks1).2
            + (wrapStep w chunks1).2.length < n := by
          have h5 := @wrapStep_measure w chunks1 hnil
          omega
        have hInv2 := wrapStep_inv hw hInv1
        have h1 := wrapStep_flatten w chunks1
        have h2 := wrapStep_boundary hw hInv1
        by_cases hemp : (dropLastWs (wrapStep w chunks1).1).isEmpty = true
        · rw [if_pos hemp]
          rw [ih _ b hInv2 hm2]
          have h3 : wsWords (wrapStep w chunks1).1.flatten = [] :=
            dropLastWs_nil (List.isEmpty_iff.mp hemp)
          rw [← h1, h2, h3, List.nil_append]
        · rw [if_neg hemp]
          rw [wsWords_joinNl_cons]
          rw [ih _ true hInv2 hm2]
          rw [wsWords_dropLastWs]
          rw [← h1, h2]

/-- Counterexample to claim C5 as stated: for address `abcdef` and width 3
the output is `abc\ndef`; replacing the inserted newline by whitespace and
collapsing whitespace yields the words `abc`, `def`, not the original single
word `abcdef` — the round trip fails when a word longer than the width is
split. -/
theorem c5_counterexample :
    wsWords (format_address_by_chars "abcdef".toList 3)
      ≠ wsWords "abcdef".toList := by
  decide

/-- Claim C5 (amended): for every non-empty address that contains no
hyphen-minus character and every width at least 1, provided every
whitespace-separated word of the address is at most `width` characters, the
wrap preserves the words and their order: collapsing whitespace (newlines
included) in the output reproduces the original address modulo whitespace
normalisation.  Both hypotheses are forced: a word longer than `width` is
hard-split by `break_long_words` (address `abcdef`, width 3), and a
hyphenated word is split after its hyphen by `break_on_hyphens` even when it
fits (CPython wraps `x ab-cd` at width 6 as `x ab-` / `cd`), either split
breaking the round trip. -/
theorem c5_amended_roundtrip :
    ∀ (address : List Char) (width : Nat), 1 ≤ width → address ≠ [] →
      '-' ∉ address →
      (∀ word ∈ wsWords address, word.length ≤ width) →
      wsWords (format_address_by_chars address width) = wsWords address := by
  intro address width hw hne _ hword
  rw [format_address_by_chars, if_neg hne]
  have hInv : WrapInv width (runSplit (munge address)) := by
    refine ⟨runSplit_ne_nil _, ?_, runSplit_chain _⟩
    intro r hr hrw
    apply hword
    rw [← wsWords_munge, ← runSplit_filter_eq_wsWords]
    exact List.mem_filter.mpr ⟨hr, by simp [hrw]⟩
  have h := roundtrip_aux hw
    (chunkChars (runSplit (munge address)) + (runSplit (munge address)).length + 1)
    (runSplit (munge address)) false hInv (by omega)
  rw [textwrapWrap, h, runSplit_flatten, wsWords_munge]

/-- Witness for the amended C5 at a concrete hyphen-free address. -/
theorem c5_amended_roundtrip_witness :
    wsWords (format_address_by_chars "ACME Pty Ltd, 5 Dock Rd".toList 10)
      = wsWords "ACME Pty Ltd, 5 Dock Rd".toList :=
  c5_amended_roundtrip "ACME Pty Ltd, 5 Dock Rd".toList 10
    (by decide) (by decide) (by decide) (by decide)
